import Mathlib

/-!
Shallow embedding of the filter-and-subsample stage implemented in
`src/parallel_filter_subsampling.cpp` of the SOI FFT repository.

Complex values are modelled as real/imaginary pairs; buffers are functions
`Nat → C`.  The SIMD kernels are modelled at the granularity of one complex
element (one pair of adjacent vector lanes), which is exact because every
vector operation used by the kernels (`_MM_LOAD`, `_MM_STORE`, `_MM_STREAM`,
`_MM_ADD`, `_MM_MUL`, `_MM_FMADDSUB`, `_MM_SWAP_REAL_IMAG`) acts lane-wise on
independent complex elements.  Where the statement of interest is a data-flow
equivalence (the same multiplications and additions performed in the same
order on the same operands), the element type and the add/multiply operations
are left abstract, so the proved equality holds for every arithmetic,
IEEE floating point included.
-/

namespace SOI

/-- Complex number as a real/imaginary pair (`cfft_complex_t` in `soi.h`,
line 224); exact rationals stand in for the floating-point components. -/
structure Cplx where
  re : ℚ
  im : ℚ
deriving DecidableEq

/-- The complex zero. -/
def czero : Cplx := ⟨0, 0⟩

/-- Componentwise complex addition (`_MM_ADD` acts lane-wise). -/
def cadd (x y : Cplx) : Cplx := ⟨x.re + y.re, x.im + y.im⟩

/-- Complex multiplication via the real/imaginary decomposition.  The kernels
compute `_MM_FMADDSUB(xl, y, _MM_SWAP_REAL_IMAG(_MM_MUL(xh, y)))` where `xl`
holds the duplicated real part and `xh` the duplicated imaginary part of the
window tap `w` (the `w_dup` layout): the even (real) lane receives
`w.re*y.re - w.im*y.im` and the odd (imaginary) lane `w.re*y.im + w.im*y.re`. -/
def cmul (w y : Cplx) : Cplx :=
  ⟨w.re * y.re - w.im * y.im, w.re * y.im + w.im * y.re⟩

/-- Pointwise buffer update: the store `buf[a] = v` on a buffer modelled as a
function from flat indices to elements. -/
def upd {C : Type} (f : Nat → C) (a : Nat) (v : C) : Nat → C :=
  fun x => if x = a then v else f x

/-- Sequential banded convolution for one output element, exactly as the
remainder-row kernel (`parallel_filter_subsampling.cpp` lines 404-428) and
the boundary-pass kernel (lines 496-515) compute it: `temp` is initialised
with the `kkk = 0` term and the terms `kkk = 1 .. B-1` are added
sequentially.  `window k theta s` is the tap read from `w_dup` at depth `k`,
oversampling index `theta`, lane `s` (both kernels address `w_dup` at
`i*B*n_mu + (kkk*n_mu + theta)*(CACHE_LINE_LEN/2) + ii*2`), and
`input seg s` is the input element of segment `seg` at lane `s`.  The
element type and the add/multiply operations are abstract: equalities about
this definition are pure data-flow facts. -/
def convKernel {C : Type} (add mul : C → C → C) (window : Nat → Nat → Nat → C)
    (input : Nat → Nat → C) (B d_mu j theta s : Nat) : C :=
  (List.range (B - 1)).foldl
    (fun acc k => add acc (mul (window (k + 1) theta s) (input (j * d_mu + (k + 1)) s)))
    (mul (window 0 theta s) (input (j * d_mu) s))

/-- The specification formula
`out[s] = Σ_{k=0}^{B-1} window[k][theta][s] · input[j·d_mu + k][s]`,
with the sum accumulated sequentially over `k` starting from the complex
zero, in the concrete complex arithmetic. -/
def specConvSum (window : Nat → Nat → Nat → Cplx) (input : Nat → Nat → Cplx)
    (B d_mu j theta s : Nat) : Cplx :=
  (List.range B).foldl
    (fun acc k => cadd acc (cmul (window k theta s) (input (j * d_mu + k) s))) czero

/-- `K_0 = floor((M/P - B)/d_mu)` (line 88; `size_t` arithmetic, so `Nat`
subtraction and division). -/
def K_0 (M P B d_mu : Nat) : Nat := (M / P - B) / d_mu

/-- `M_hat = n_mu*M/d_mu` (line 70). -/
def M_hat (M n_mu d_mu : Nat) : Nat := n_mu * M / d_mu

/-- Number of output block-rows each process computes, `M_hat/(P*n_mu)`: the
boundary-pass row loop (line 497) runs `j = 0 .. M_hat/(P*n_mu) - K_0 - 1`,
producing rows `K_0 + j`. -/
def rowsPerProc (M P n_mu d_mu : Nat) : Nat := M_hat M n_mu d_mu / (P * n_mu)

/-- The Local-Only Pass produces exactly the rows `j < K_0`: lines 159-163
partition the unrolled range `[0, K_0/J*J)` across threads and lines 403-404
cover the remainder rows `[K_0/J*J, K_0)`. -/
def inLocalPass (M P B d_mu j : Nat) : Prop := j < K_0 M P B d_mu

/-- The Boundary Pass produces the rows `K_0 + j'` for
`j' < M_hat/(P*n_mu) - K_0` (lines 496-499: the block written for `(j,theta)`
starts at `gamma_tilde + (K_0*n_mu + j*n_mu + theta)*S` and is scattered to
column `(K_0 + j)*n_mu + theta`). -/
def inBoundaryPass (M P B n_mu d_mu j : Nat) : Prop :=
  ∃ j' < rowsPerProc M P n_mu d_mu - K_0 M P B d_mu, j = K_0 M P B d_mu + j'

/-- `b_cnt = M/P - K_0*d_mu` (line 101). -/
def b_cnt (M P B d_mu : Nat) : Nat := M / P - K_0 M P B d_mu * d_mu

/-- Ring predecessor `PID_left = (P+rank-1)%P` (line 63). -/
def PID_left (P rank : Nat) : Nat := (P + rank - 1) % P

/-- Ring successor `PID_right = (rank+1)%P` (line 64). -/
def PID_right (P rank : Nat) : Nat := (rank + 1) % P

/-- `alpha_ghost` after the local `memcpy` (line 102) and before the receive
completes: the head `b_cnt*S` elements are copied from the local slice
starting at flat offset `K_0*d_mu*S`; the rest of the scratch buffer still
holds its previous contents `g0`. -/
def ghostAfterCopy {C : Type} (g0 alphaLocal : Nat → C) (M P B d_mu S : Nat) : Nat → C :=
  fun t =>
    if t < b_cnt M P B d_mu * S then alphaLocal (K_0 M P B d_mu * d_mu * S + t) else g0 t

/-- Payload of the `MPI_Isend` (lines 107-108): the first `(B-d_mu)*S`
complex elements of the local slice (`n_elements*2` values of `MPI_TYPE`),
sent to `PID_left` with tag 0. -/
def sendPayload {C : Type} (alphaLocal : Nat → C) (t : Nat) : C := alphaLocal t

/-- `alpha_ghost` after `MPI_Wait(&request_receive)` (line 483): positions
`[b_cnt*S, b_cnt*S + (B-d_mu)*S)` hold the payload sent by the ring
successor `PID_right` (the `MPI_Irecv` of lines 105-106 is posted with
source `PID_right` and tag 0, and matches that rank's `MPI_Isend` to its own
`PID_left`, which is this rank); every other position is as left by the
copy that precedes the receive. -/
def ghostAfterRecv {C : Type} (g0 : Nat → C) (alphas : Nat → Nat → C)
    (P rank M B d_mu S : Nat) : Nat → C :=
  fun t =>
    if b_cnt M P B d_mu * S ≤ t ∧ t < b_cnt M P B d_mu * S + (B - d_mu) * S then
      sendPayload (alphas (PID_right P rank)) (t - b_cnt M P B d_mu * S)
    else ghostAfterCopy g0 (alphas rank) M P B d_mu S t

/-- Transpose/Scatter of one transformed block with flat column index
`jn = j*n_mu + theta` (lines 386-395, 434-439 and 519-523): for `s` in
`[0,S)` write `alpha_tilde[s*l + jn] := gamma_tilde[S*jn + s]`, where
`l = M_hat/P`. -/
def scatterBlock {C : Type} (buf g : Nat → C) (S l jn : Nat) : Nat → C :=
  (List.range S).foldl (fun b s => upd b (s * l + jn) (g (S * jn + s))) buf

/-- Scatter of the blocks with flat column indices `0 .. R-1` in order (the
passes emit blocks in increasing `(row, theta)` order, which is increasing
`jn = row*n_mu + theta`). -/
def scatterAll {C : Type} (buf g : Nat → C) (S l R : Nat) : Nat → C :=
  (List.range R).foldl (fun b jn => scatterBlock b g S l jn) buf

/-- Initial fill of the per-thread ring buffer (lines 168-172): at the head
of one lane chunk, slots `k = 0 .. B-d_mu-1` receive the input elements of
segments `j_begin*d_mu + k` at lane `p` (two `_MM_LOAD`s per slot cover one
`CACHE_LINE_LEN/2` chunk of complex elements; lanes are independent, `p` is
the absolute lane position of the element being tracked). -/
def fillInit {C : Type} (buf0 alpha : Nat → C) (jb d_mu B S p : Nat) : Nat → C :=
  (List.range (B - d_mu)).foldl
    (fun b k => upd b k (alpha ((jb * d_mu + k) * S + p))) buf0

/-- Ring-buffer refill at the head of one row-group iteration (lines
176-183): for `k = 0 .. DJ-1` (`DJ = D_MU*J_UNROLL_FACTOR`) slot
`(ptr + (B-d_mu) + k) % len` receives the input element of segment
`j0*d_mu + (B-d_mu) + k` at lane `p`
(`input_buffer[(input_buffer_ptr + B - d_mu + k)%input_buffer_len]`). -/
def loadStep {C : Type} (buf alpha : Nat → C) (j0 ptr d_mu B DJ S p len : Nat) : Nat → C :=
  (List.range DJ).foldl
    (fun b k =>
      upd b ((ptr + (B - d_mu) + k) % len)
        (alpha ((j0 * d_mu + (B - d_mu) + k) * S + p))) buf

/-- Ring-buffer contents after the refill at the head of row-group iteration
`m` (iteration `m` handles rows `j0 = j_begin + m*J .. j_begin + m*J + J-1`
for `J = J_UNROLL_FACTOR`).  `input_buffer_ptr` starts at 0 and advances by
`d_mu*J` modulo `len = input_buffer_len` at the end of each iteration (line
285), so at iteration `m` it equals `(m*(d_mu*J)) % len`. -/
def bufAfterLoad {C : Type} (buf0 alpha : Nat → C) (jb d_mu B J S p len : Nat) :
    Nat → Nat → C
  | 0 => loadStep (fillInit buf0 alpha jb d_mu B S p) alpha jb 0 d_mu B (d_mu * J) S p len
  | m + 1 =>
      loadStep (bufAfterLoad buf0 alpha jb d_mu B J S p len m) alpha (jb + (m + 1) * J)
        ((m + 1) * (d_mu * J) % len) d_mu B (d_mu * J) S p len

/-- Value the register-blocked unrolled kernel (lines 185-274) stores into
`gamma_tilde` for row-group iteration `m`, in-group row `j < J_UNROLL_FACTOR`,
oversampling index `theta`, at lane `p`: each accumulator `temp[j][theta]` is
initialised with the `kkk = 0` FMADDSUB term (lines 193-225) and then
accumulates the terms `kkk = 1 .. B-1` (lines 227-261), reading the input
ring buffer at slot `(input_buffer_ptr + j*d_mu + kkk) % input_buffer_len`
(`THETA_UNROLL_FACTOR = N_MU` for both supported configurations since
`N_MU ≤ REG_BLOCK_SIZE`, so the `theta_0` loop runs once with `theta_0 = 0`
and `theta` is the global oversampling index; the store of lines 263-274 puts
this value at `gamma_tilde + S*((j0+j)*N_MU + theta) + lane`). -/
def unrolledValue {C : Type} (add mul : C → C → C) (wf : Nat → Nat → Nat → C)
    (buf0 alpha : Nat → C) (B d_mu J S jb len p m j theta : Nat) : C :=
  (List.range (B - 1)).foldl
    (fun acc kkk =>
      add acc (mul (wf (kkk + 1) theta p)
        (bufAfterLoad buf0 alpha jb d_mu B J S p len m
          ((m * (d_mu * J) % len + j * d_mu + (kkk + 1)) % len))))
    (mul (wf 0 theta p)
      (bufAfterLoad buf0 alpha jb d_mu B J S p len m
        ((m * (d_mu * J) % len + j * d_mu) % len)))

/-- Flat address of the `u`-th complex element (`u = 0 .. 31`) written by the
sixteen 256-bit streaming stores of one AVX 4x4-interleave chunk of the
`N_MU == 8` transpose path (lines 317-383, double precision, so
`SIMD_WIDTH = 4` doubles = 2 complex elements per register and the `jj` loop
runs exactly once with `jj = j*8`).  The stores write, in source order,
`out+0:b11, out+2:b31, out+4:b51, out+6:b71` (lane `s0`, thetas `0..7`),
then the same four theta pairs at `out+l` (lane `s0+1`, registers
`b12,b32,b52,b72`), at `out+2*l` (lane `s0+2`, `b21,b41,b61,b81`) and at
`out+3*l` (lane `s0+3`, `b22,b42,b62,b82`), where `out = alpha_tilde + s0*l
+ j*8`.  Writing `u = 8*r + v` with `r = u/8` the lane offset and `v = u%8`
the oversampling index, element `u` lands at `(s0+r)*l + (j*8 + v)`. -/
def avxAddr (l j s0 u : Nat) : Nat := (s0 + u / 8) * l + (j * 8 + u % 8)

/-- One chunk (one `s` iteration, `s0 = s`) of the AVX `N_MU == 8` transpose
path: the 32 complex elements written by the sixteen streaming stores, in
source order; element `u` carries the value
`gamma_tilde[S*(j*8 + u%8) + (s0 + u/8)]` (register `a..` loads from
`v_tmp + theta*S + lane` with `v_tmp = gamma_tilde + S*j*8`). -/
def avxChunk {C : Type} (b g : Nat → C) (S l j s0 : Nat) : Nat → C :=
  (List.range 32).foldl
    (fun b' u => upd b' (avxAddr l j s0 u) (g (S * (j * 8 + u % 8) + (s0 + u / 8)))) b

/-- The whole AVX `N_MU == 8` transpose path for one block row `j`: the `s`
loop of line 320 steps by `SIMD_WIDTH = 4` complex elements, i.e. chunk
`c` starts at lane `s0 = 4*c`, for `c = 0 .. S/4 - 1`. -/
def avxTransposePath {C : Type} (buf g : Nat → C) (S l j : Nat) : Nat → C :=
  (List.range (S / 4)).foldl (fun b chunk => avxChunk b g S l j (4 * chunk)) buf

/-- The scalar element-by-element transpose path (lines 386-395): `theta`
outer, `s` inner, `alpha_tilde[s*l + j*n_mu + theta] =
gamma_tilde[S*(j*n_mu + theta) + s]`. -/
def scalarTransposePath {C : Type} (buf g : Nat → C) (S l j n_mu : Nat) : Nat → C :=
  (List.range n_mu).foldl (fun b theta => scatterBlock b g S l (j * n_mu + theta)) buf

/-- Observable outcome of one of the fatal configuration-error paths, as seen
by one rank: whether this rank calls `exit`, with which status, whether this
rank printed the diagnostic, and which phases had been entered when the
error fired. -/
structure FatalOutcome where
  exited : Bool
  exitCode : Int
  printed : Bool
  commIssued : Bool
  computeStarted : Bool
  outputWritten : Bool
deriving DecidableEq

/-- The dispatch wrapper (lines 534-550) supports exactly the pairs
`(5,4)` and `(8,7)`. -/
def supportedRatio (n_mu d_mu : Nat) : Bool :=
  (n_mu == 5 && d_mu == 4) || (n_mu == 8 && d_mu == 7)

/-- Outcome of the dispatch wrapper (lines 534-550) on the rank `rank`:
for a supported pair the specialization runs (`none`: no fatal exit here);
otherwise rank 0 prints the diagnostic to stderr and every rank calls
`exit(-1)` before any communication, compute or buffer write happens. -/
def dispatchOutcome (n_mu d_mu rank : Nat) : Option FatalOutcome :=
  if supportedRatio n_mu d_mu then none
  else some ⟨true, -1, rank == 0, false, false, false⟩

/-- Outcome of the `M/P < B` guard (lines 89-94), executed at the top of the
specialization before the ghost exchange and all compute: when it fires,
rank 0 prints "input size too small" and every rank calls `exit(0)`. -/
def smallInputGuard (M P B rank : Nat) : Option FatalOutcome :=
  if M / P < B then some ⟨true, 0, rank == 0, false, false, false⟩ else none

/-- `num_thread_groups = MIN(S/(CACHE_LINE_LEN/2), 8)` (line 128); for the
double-precision build `CACHE_LINE_LEN = 64/sizeof(double) = 8`, so
`CACHE_LINE_LEN/2 = 4`. -/
def num_thread_groups (S : Nat) : Nat := min (S / 4) 8

/-- Outcome of the worker-thread-count guard (lines 129-132), executed after
the ghost exchange has been issued but before the parallel compute region:
`if (0 == rank && nthreads < num_thread_groups) { fprintf(...); exit(-1); }`.
Only rank 0 performs the check, prints, and exits; other ranks continue. -/
def threadCountGuard (S nthreads rank : Nat) : Option FatalOutcome :=
  if rank = 0 ∧ nthreads < num_thread_groups S then
    some ⟨true, -1, true, true, false, false⟩
  else none

/-! Generic lemmas about buffers built by folds of stores. -/

/-- Reading an address that none of the `n` stores touches gives the
original buffer contents. -/
theorem foldl_upd_miss {C : Type} (A : Nat → Nat) (V : Nat → C) (b0 : Nat → C) (n a : Nat)
    (h : ∀ k, k < n → A k ≠ a) :
    (List.range n).foldl (fun b k => upd b (A k) (V k)) b0 a = b0 a := by
  induction n with
  | zero => rfl
  | succ n ih =>
    simp only [List.range_succ, List.foldl_append, List.foldl_cons, List.foldl_nil]
    simp only [upd]
    rw [if_neg (fun he => h n (Nat.lt_succ_self n) he.symm)]
    exact ih (fun k hk => h k (Nat.lt_succ_of_lt hk))

/-- Reading the address of store `t` after all `n` stores, when no later
store hits the same address, gives the value of store `t`. -/
theorem foldl_upd_hit {C : Type} (A : Nat → Nat) (V : Nat → C) (b0 : Nat → C) (n t : Nat)
    (ht : t < n) (h : ∀ k, t < k → k < n → A k ≠ A t) :
    (List.range n).foldl (fun b k => upd b (A k) (V k)) b0 (A t) = V t := by
  induction n with
  | zero => exact absurd ht (Nat.not_lt_zero t)
  | succ n ih =>
    simp only [List.range_succ, List.foldl_append, List.foldl_cons, List.foldl_nil]
    by_cases hc : t = n
    · subst hc
      simp [upd]
    · have htn : t < n := by omega
      simp only [upd]
      rw [if_neg (fun he => h n htn (Nat.lt_succ_self n) he.symm)]
      exact ih htn (fun k hk1 hk2 => h k hk1 (Nat.lt_succ_of_lt hk2))

/-- Two folds whose step functions agree on the list elements are equal. -/
theorem foldl_fun_congr {α β : Type} {f g : β → α → β} {l : List α}
    (H : ∀ a ∈ l, ∀ b, f b a = g b a) : ∀ b, l.foldl f b = l.foldl g b := by
  induction l with
  | nil => intro b; rfl
  | cons x xs ih =>
    intro b
    simp only [List.foldl_cons]
    rw [H x (List.mem_cons_self x xs)]
    exact ih (fun a ha b' => H a (List.mem_cons_of_mem x ha) b') _

/-- Uniqueness of the `(row, column)` decomposition of a flat address
`s*l + r` with `r < l`. -/
theorem block_addr_inj {l r r' s s' : Nat} (hr : r < l) (hr' : r' < l)
    (h : s * l + r = s' * l + r') : s = s' ∧ r = r' := by
  have hl : 0 < l := Nat.lt_of_le_of_lt (Nat.zero_le r) hr
  have e1 : (s * l + r) / l = s := by
    rw [Nat.mul_comm, Nat.mul_add_div hl, Nat.div_eq_of_lt hr, Nat.add_zero]
  have e2 : (s' * l + r') / l = s' := by
    rw [Nat.mul_comm, Nat.mul_add_div hl, Nat.div_eq_of_lt hr', Nat.add_zero]
  have hs : s = s' := by rw [← e1, ← e2, h]
  subst hs
  exact ⟨rfl, Nat.add_left_cancel h⟩

/-- Division and remainder of a flat address `s*l + r` with `r < l`. -/
theorem block_addr_mod_div {l r : Nat} (s : Nat) (hr : r < l) :
    (s * l + r) % l = r ∧ (s * l + r) / l = s := by
  have hl : 0 < l := Nat.lt_of_le_of_lt (Nat.zero_le r) hr
  constructor
  · rw [Nat.mul_comm, Nat.mul_add_mod, Nat.mod_eq_of_lt hr]
  · rw [Nat.mul_comm, Nat.mul_add_div hl, Nat.div_eq_of_lt hr, Nat.add_zero]

/-- Ring-buffer slots `(a + x) % len` and `(a + y) % len` coincide only for
equal in-window offsets `x, y < len`. -/
theorem add_mod_inj (len a x y : Nat) (hx : x < len) (hy : y < len)
    (h : (a + x) % len = (a + y) % len) : x = y := by
  have hmod : x % len = y % len := Nat.ModEq.add_left_cancel' a h
  rwa [Nat.mod_eq_of_lt hx, Nat.mod_eq_of_lt hy] at hmod

/-- Adding the complex zero on the left is the identity. -/
theorem czero_cadd (x : Cplx) : cadd czero x = x := by
  cases x
  simp [cadd, czero]

/-- A sequentially accumulated sum over `n+1` terms starting from zero equals
the fold that starts from the first term. -/
theorem foldl_cadd_shift (f : Nat → Cplx) (n : Nat) :
    (List.range (n + 1)).foldl (fun acc k => cadd acc (f k)) czero
      = (List.range n).foldl (fun acc k => cadd acc (f (k + 1))) (f 0) := by
  rw [List.range_succ_eq_map, List.foldl_cons, List.foldl_map]
  rw [czero_cadd]

/-- Reading back the address written for lane `s` of block `jn` after the
whole block is scattered. -/
theorem scatterBlock_read {C : Type} (buf g : Nat → C) (S l jn s : Nat)
    (hs : s < S) (hjn : jn < l) :
    scatterBlock buf g S l jn (s * l + jn) = g (S * jn + s) := by
  unfold scatterBlock
  refine foldl_upd_hit (fun k => k * l + jn) (fun k => g (S * jn + k)) buf S s hs ?_
  intro k hk1 hk2 he
  obtain ⟨hss, -⟩ := block_addr_inj hjn hjn he
  omega

/-- A block scatter leaves every address it does not write unchanged. -/
theorem scatterBlock_skip {C : Type} (buf g : Nat → C) (S l jn a : Nat)
    (h : ∀ s, s < S → s * l + jn ≠ a) :
    scatterBlock buf g S l jn a = buf a := by
  unfold scatterBlock
  exact foldl_upd_miss (fun k => k * l + jn) (fun k => g (S * jn + k)) buf S a h

/-- Reading back one element after scattering a sequence of blocks with
pairwise distinct column indices `cols 0 .. cols (n-1)`, all below `l`. -/
theorem scatterFold_read {C : Type} (g : Nat → C) (S l : Nat) (cols : Nat → Nat)
    (n : Nat) (buf : Nat → C) (theta s : Nat) (htheta : theta < n) (hs : s < S)
    (hcols : ∀ q, q < n → cols q < l)
    (hinj : ∀ q, q < n → q ≠ theta → cols q ≠ cols theta) :
    (List.range n).foldl (fun b q => scatterBlock b g S l (cols q)) buf
        (s * l + cols theta)
      = g (S * cols theta + s) := by
  induction n with
  | zero => omega
  | succ n ih =>
    simp only [List.range_succ, List.foldl_append, List.foldl_cons, List.foldl_nil]
    by_cases hc : theta = n
    · subst hc
      exact scatterBlock_read _ g S l (cols theta) s hs (hcols theta htheta)
    · have htn : theta < n := by omega
      rw [scatterBlock_skip]
      · exact ih htn (fun q hq => hcols q (Nat.lt_succ_of_lt hq))
          (fun q h1 h2 => hinj q (Nat.lt_succ_of_lt h1) h2)
      · intro s' hs' he
        obtain ⟨-, h2⟩ :=
          block_addr_inj (hcols n (Nat.lt_succ_self n)) (hcols theta htheta) he
        exact hinj n (Nat.lt_succ_self n) (fun he' => hc he'.symm) h2

/-- A sequence of block scatters leaves an address none of them writes
unchanged. -/
theorem scatterFold_skip {C : Type} (g : Nat → C) (S l : Nat) (cols : Nat → Nat)
    (n : Nat) (buf : Nat → C) (a : Nat)
    (h : ∀ q s, q < n → s < S → s * l + cols q ≠ a) :
    (List.range n).foldl (fun b q => scatterBlock b g S l (cols q)) buf a = buf a := by
  induction n with
  | zero => rfl
  | succ n ih =>
    simp only [List.range_succ, List.foldl_append, List.foldl_cons, List.foldl_nil]
    rw [scatterBlock_skip]
    · exact ih (fun q s h1 h2 => h q s (Nat.lt_succ_of_lt h1) h2)
    · exact fun s hs => h n s (Nat.lt_succ_self n) hs

/-- Reading back one element written by one AVX 4x4-interleave chunk. -/
theorem avxChunk_read {C : Type} (b g : Nat → C) (S l j s0 r v : Nat)
    (hr : r < 4) (hv : v < 8) (hl : j * 8 + 8 ≤ l) :
    avxChunk b g S l j s0 ((s0 + r) * l + (j * 8 + v))
      = g (S * (j * 8 + v) + (s0 + r)) := by
  unfold avxChunk
  have ht : 8 * r + v < 32 := by omega
  have h1 : (8 * r + v) / 8 = r := by omega
  have h2 : (8 * r + v) % 8 = v := by omega
  have hA : avxAddr l j s0 (8 * r + v) = (s0 + r) * l + (j * 8 + v) := by
    unfold avxAddr
    rw [h1, h2]
  have hV : g (S * (j * 8 + (8 * r + v) % 8) + (s0 + (8 * r + v) / 8))
      = g (S * (j * 8 + v) + (s0 + r)) := by
    rw [h1, h2]
  rw [← hA, ← hV]
  refine foldl_upd_hit (avxAddr l j s0)
    (fun u => g (S * (j * 8 + u % 8) + (s0 + u / 8))) b 32 (8 * r + v) ht ?_
  intro k hk1 hk2 he
  unfold avxAddr at he
  obtain ⟨e1, e2⟩ := block_addr_inj (by omega) (by omega) he
  omega

/-- An AVX chunk leaves every address it does not write unchanged. -/
theorem avxChunk_skip {C : Type} (b g : Nat → C) (S l j s0 a : Nat)
    (h : ∀ r v, r < 4 → v < 8 → (s0 + r) * l + (j * 8 + v) ≠ a) :
    avxChunk b g S l j s0 a = b a := by
  unfold avxChunk
  refine foldl_upd_miss (avxAddr l j s0)
    (fun u => g (S * (j * 8 + u % 8) + (s0 + u / 8))) b 32 a ?_
  intro k hk
  exact h (k / 8) (k % 8) (by omega) (by omega)

/-- Reading back one element after `n` AVX chunks (lanes `0 .. 4n-1`). -/
theorem avxFold_read {C : Type} (g : Nat → C) (S l j : Nat) (hl : j * 8 + 8 ≤ l) :
    ∀ (n : Nat) (buf : Nat → C) (s v : Nat), s < 4 * n → v < 8 →
      (List.range n).foldl (fun b chunk => avxChunk b g S l j (4 * chunk)) buf
          (s * l + (j * 8 + v))
        = g (S * (j * 8 + v) + s) := by
  intro n
  induction n with
  | zero => intro buf s v hs hv; omega
  | succ n ih =>
    intro buf s v hs hv
    simp only [List.range_succ, List.foldl_append, List.foldl_cons, List.foldl_nil]
    by_cases hc : 4 * n ≤ s
    · have hs' : s = 4 * n + (s - 4 * n) := by omega
      rw [hs']
      exact avxChunk_read _ g S l j (4 * n) (s - 4 * n) v (by omega) hv hl
    · rw [avxChunk_skip]
      · exact ih buf s v (by omega) hv
      · intro r v' hr hv' he
        obtain ⟨e1, -⟩ := block_addr_inj (by omega) (by omega) he
        omega

/-- A sequence of AVX chunks leaves an address none of them writes
unchanged. -/
theorem avxFold_skip {C : Type} (g : Nat → C) (S l j : Nat) :
    ∀ (n : Nat) (buf : Nat → C) (a : Nat),
      (∀ s v, s < 4 * n → v < 8 → s * l + (j * 8 + v) ≠ a) →
      (List.range n).foldl (fun b chunk => avxChunk b g S l j (4 * chunk)) buf a
        = buf a := by
  intro n
  induction n with
  | zero => intro buf a h; rfl
  | succ n ih =>
    intro buf a h
    simp only [List.range_succ, List.foldl_append, List.foldl_cons, List.foldl_nil]
    rw [avxChunk_skip]
    · exact ih buf a (fun s v hs hv => h s v (by omega) hv)
    · intro r v hr hv
      exact h (4 * n + r) v (by omega) hv

/-- Ring-buffer invariant: after the refill at the head of row-group
iteration `m`, the window of `B - d_mu + d_mu*J` slots starting at the
current pointer holds the lane-`p` elements of the consecutive input
segments starting at segment `(j_begin + m*J)*d_mu`. -/
theorem bufAfterLoad_inv {C : Type} (buf0 alpha : Nat → C) (jb d_mu B J S p len : Nat)
    (hd : d_mu ≤ B) (hwin : B - d_mu + d_mu * J ≤ len) :
    ∀ m, ∀ t, t < B - d_mu + d_mu * J →
      bufAfterLoad buf0 alpha jb d_mu B J S p len m ((m * (d_mu * J) + t) % len)
        = alpha (((jb + m * J) * d_mu + t) * S + p) := by
  intro m
  induction m with
  | zero =>
    intro t ht
    have hlen : 0 < len := by omega
    have hslot : (0 * (d_mu * J) + t) % len = t := by
      rw [Nat.zero_mul, Nat.zero_add, Nat.mod_eq_of_lt (by omega)]
    rw [hslot]
    show loadStep (fillInit buf0 alpha jb d_mu B S p) alpha jb 0 d_mu B (d_mu * J) S p len t
      = alpha (((jb + 0 * J) * d_mu + t) * S + p)
    have hseg : (jb + 0 * J) * d_mu = jb * d_mu := by ring
    by_cases hcase : t < B - d_mu
    · unfold loadStep
      rw [foldl_upd_miss _ _ _ (d_mu * J) t ?hmiss]
      case hmiss =>
        intro k hk he
        rw [Nat.mod_eq_of_lt (by omega)] at he
        omega
      have hfill : fillInit buf0 alpha jb d_mu B S p t = alpha ((jb * d_mu + t) * S + p) := by
        unfold fillInit
        exact foldl_upd_hit (fun k => k) (fun k => alpha ((jb * d_mu + k) * S + p)) buf0
          (B - d_mu) t hcase (fun k hk1 hk2 => ne_of_gt hk1)
      rw [hfill, hseg]
    · have hk0 : t - (B - d_mu) < d_mu * J := by omega
      have hA : t = (0 + (B - d_mu) + (t - (B - d_mu))) % len := by
        rw [Nat.mod_eq_of_lt (by omega)]
        omega
      have hhit : loadStep (fillInit buf0 alpha jb d_mu B S p) alpha jb 0 d_mu B
          (d_mu * J) S p len ((0 + (B - d_mu) + (t - (B - d_mu))) % len)
          = alpha ((jb * d_mu + (B - d_mu) + (t - (B - d_mu))) * S + p) := by
        unfold loadStep
        refine foldl_upd_hit _ _ _ (d_mu * J) (t - (B - d_mu)) hk0 ?_
        intro k hk1 hk2 he
        rw [Nat.mod_eq_of_lt (by omega), Nat.mod_eq_of_lt (by omega)] at he
        omega
      calc loadStep (fillInit buf0 alpha jb d_mu B S p) alpha jb 0 d_mu B (d_mu * J) S p len t
          = loadStep (fillInit buf0 alpha jb d_mu B S p) alpha jb 0 d_mu B (d_mu * J) S p len
            ((0 + (B - d_mu) + (t - (B - d_mu))) % len) := by rw [← hA]
        _ = alpha ((jb * d_mu + (B - d_mu) + (t - (B - d_mu))) * S + p) := hhit
        _ = alpha (((jb + 0 * J) * d_mu + t) * S + p) := by
            rw [hseg]
            congr 1
            have h2 : jb * d_mu + (B - d_mu) + (t - (B - d_mu)) = jb * d_mu + t := by omega
            rw [h2]
  | succ m ih =>
    intro t ht
    have hlen : 0 < len := by omega
    show loadStep (bufAfterLoad buf0 alpha jb d_mu B J S p len m) alpha (jb + (m + 1) * J)
        ((m + 1) * (d_mu * J) % len) d_mu B (d_mu * J) S p len
        (((m + 1) * (d_mu * J) + t) % len)
      = alpha (((jb + (m + 1) * J) * d_mu + t) * S + p)
    have hAk : ∀ k, ((m + 1) * (d_mu * J) % len + (B - d_mu) + k) % len
        = ((m + 1) * (d_mu * J) + ((B - d_mu) + k)) % len := by
      intro k
      rw [Nat.add_assoc, Nat.mod_add_mod]
    by_cases hcase : t < B - d_mu
    · unfold loadStep
      rw [foldl_upd_miss _ _ _ (d_mu * J) _ ?hmiss]
      case hmiss =>
        intro k hk he
        rw [hAk k] at he
        have := add_mod_inj len _ _ _ (by omega) (by omega) he
        omega
      have hsplit : ((m + 1) * (d_mu * J) + t) % len
          = (m * (d_mu * J) + (d_mu * J + t)) % len := by
        have : (m + 1) * (d_mu * J) + t = m * (d_mu * J) + (d_mu * J + t) := by ring
        rw [this]
      rw [hsplit, ih (d_mu * J + t) (by omega)]
      congr 1
      ring
    · unfold loadStep
      have hk0 : t - (B - d_mu) < d_mu * J := by omega
      have hA : ((m + 1) * (d_mu * J) + t) % len
          = ((m + 1) * (d_mu * J) % len + (B - d_mu) + (t - (B - d_mu))) % len := by
        rw [hAk]
        congr 1
        omega
      rw [hA, foldl_upd_hit _ _ _ (d_mu * J) (t - (B - d_mu)) hk0 ?hlater]
      case hlater =>
        intro k hk1 hk2 he
        rw [hAk k, hAk (t - (B - d_mu))] at he
        have := add_mod_inj len _ _ _ (by omega) (by omega) he
        omega
      congr 1
      have : (jb + (m + 1) * J) * d_mu + (B - d_mu) + (t - (B - d_mu))
          = (jb + (m + 1) * J) * d_mu + t := by omega
      rw [this]

/-- The register-blocked unrolled kernel computes, for each row it covers,
exactly the sequential banded convolution of that row: same multiplications,
same additions, same order, reading the same input elements. -/
theorem unrolledValue_eq {C : Type} (add mul : C → C → C) (wf : Nat → Nat → Nat → C)
    (buf0 alpha : Nat → C) (B d_mu J S jb len p m j theta : Nat)
    (hB : 1 ≤ B) (hd : d_mu ≤ B) (hj : j < J) (hwin : B - d_mu + d_mu * J ≤ len) :
    unrolledValue add mul wf buf0 alpha B d_mu J S jb len p m j theta
      = convKernel add mul wf (fun seg lane => alpha (seg * S + lane)) B d_mu
          (jb + m * J + j) theta p := by
  have hread : ∀ kkk, kkk < B →
      bufAfterLoad buf0 alpha jb d_mu B J S p len m
          ((m * (d_mu * J) % len + j * d_mu + kkk) % len)
        = alpha (((jb + m * J + j) * d_mu + kkk) * S + p) := by
    intro kkk hkkk
    have hjd : j * d_mu + d_mu ≤ d_mu * J := by
      have h1 : (j + 1) * d_mu ≤ J * d_mu := Nat.mul_le_mul_right d_mu (by omega)
      have h2 : (j + 1) * d_mu = j * d_mu + d_mu := by ring
      have h3 : J * d_mu = d_mu * J := by ring
      omega
    have ht : j * d_mu + kkk < B - d_mu + d_mu * J := by omega
    have hslot : (m * (d_mu * J) % len + j * d_mu + kkk) % len
        = (m * (d_mu * J) + (j * d_mu + kkk)) % len := by
      rw [Nat.add_assoc, Nat.mod_add_mod]
    rw [hslot, bufAfterLoad_inv buf0 alpha jb d_mu B J S p len hd hwin m _ ht]
    congr 1
    ring
  unfold unrolledValue convKernel
  have h0 := hread 0 (by omega)
  simp only [Nat.add_zero] at h0
  rw [h0]
  refine foldl_fun_congr ?_ _
  intro kkk hmem acc
  have hk : kkk < B - 1 := List.mem_range.mp hmem
  rw [hread (kkk + 1) (by omega)]

/-- With `size_t` (floor) division throughout, `M_hat/(P*n_mu)` collapses to
`M/(P*d_mu)`: the oversampling numerator cancels exactly. -/
theorem rowsPerProc_eq (M P n_mu d_mu : Nat) (hn : 0 < n_mu) :
    rowsPerProc M P n_mu d_mu = M / (P * d_mu) := by
  unfold rowsPerProc M_hat
  rw [Nat.div_div_eq_div_mul]
  have h1 : d_mu * (P * n_mu) = n_mu * (d_mu * P) := by ring
  rw [h1, Nat.mul_div_mul_left M (d_mu * P) hn, Nat.mul_comm d_mu P]

/-- The successor of a rank sends to exactly that rank: `PID_left` of
`PID_right` is the identity on ranks below `P`. -/
theorem PID_left_PID_right (P rank : Nat) (hP : 0 < P) (hr : rank < P) :
    PID_left P (PID_right P rank) = rank := by
  unfold PID_left PID_right
  rcases Nat.lt_or_ge (rank + 1) P with h | h
  · rw [Nat.mod_eq_of_lt h]
    have h2 : P + (rank + 1) - 1 = P + rank := by omega
    rw [h2, Nat.add_mod_left, Nat.mod_eq_of_lt hr]
  · have h1 : rank + 1 = P := by omega
    rw [h1, Nat.mod_self]
    have h2 : P + 0 - 1 = P - 1 := by omega
    rw [h2, Nat.mod_eq_of_lt (by omega)]
    omega

/-- C1: for every output block `(row j, oversampling index theta)` with the
`B` consecutive `S`-length input segments starting at row `j*d_mu`
available, the convolution kernel produces at each lane `s` the value
`Σ_{k=0}^{B-1} window[k][theta][s] · input[j·d_mu + k][s]`, with complex
multiplication via the real/imaginary decomposition, accumulated
sequentially over `k` starting from `k = 0`. -/
theorem c1_conv_kernel_sum (window : Nat → Nat → Nat → Cplx) (input : Nat → Nat → Cplx)
    (B d_mu j theta s : Nat) (hB : 1 ≤ B) :
    convKernel cadd cmul window input B d_mu j theta s
      = specConvSum window input B d_mu j theta s := by
  obtain ⟨B', rfl⟩ : ∃ B', B = B' + 1 := ⟨B - 1, by omega⟩
  unfold convKernel specConvSum
  rw [foldl_cadd_shift (fun k => cmul (window k theta s) (input (j * d_mu + k) s)) B']
  simp only [Nat.add_sub_cancel, Nat.add_zero]

/-- Witness for C1 at a concrete configuration. -/
theorem c1_witness :
    1 ≤ 2
    ∧ convKernel cadd cmul (fun _ _ _ => ⟨1, 0⟩) (fun seg _ => ⟨(seg : ℚ), 1⟩) 2 1 0 0 0
      = specConvSum (fun _ _ _ => ⟨1, 0⟩) (fun seg _ => ⟨(seg : ℚ), 1⟩) 2 1 0 0 0 :=
  ⟨by decide, c1_conv_kernel_sum _ _ 2 1 0 0 0 (by decide)⟩

/-- C2: every output row below `M_hat/(P*n_mu)` is produced by exactly one of
the Local-Only Pass (rows `[0, K_0)`) and the Boundary Pass (the remaining
rows): the local range never exceeds the row count, membership in the two
passes is complementary, and when `M/P = B` we get `K_0 = 0`, the Local-Only
Pass covers nothing and the Boundary Pass covers every row. -/
theorem c2_pass_partition (M P B n_mu d_mu j : Nat) (hn : 0 < n_mu)
    (hj : j < rowsPerProc M P n_mu d_mu) :
    K_0 M P B d_mu ≤ rowsPerProc M P n_mu d_mu
    ∧ (inLocalPass M P B d_mu j ↔ ¬ inBoundaryPass M P B n_mu d_mu j)
    ∧ (M / P = B →
        K_0 M P B d_mu = 0 ∧ ¬ inLocalPass M P B d_mu j ∧ inBoundaryPass M P B n_mu d_mu j) := by
  have hK : K_0 M P B d_mu ≤ rowsPerProc M P n_mu d_mu := by
    rw [rowsPerProc_eq M P n_mu d_mu hn]
    unfold K_0
    calc (M / P - B) / d_mu ≤ M / P / d_mu := Nat.div_le_div_right (Nat.sub_le _ _)
      _ = M / (P * d_mu) := Nat.div_div_eq_div_mul _ _ _
  refine ⟨hK, ?_, ?_⟩
  · unfold inLocalPass inBoundaryPass
    constructor
    · rintro hl ⟨j', hj', he⟩
      omega
    · intro hnb
      by_contra hge
      exact hnb ⟨j - K_0 M P B d_mu, by omega, by omega⟩
  · intro hMPB
    have hK0 : K_0 M P B d_mu = 0 := by
      unfold K_0
      rw [hMPB]
      simp
    refine ⟨hK0, ?_, ?_⟩
    · unfold inLocalPass
      omega
    · unfold inBoundaryPass
      exact ⟨j, by omega, by omega⟩

/-- Witness for C2 at a concrete configuration
(`M = 64, P = 2, B = 8, n_mu = 5, d_mu = 4`, row 7). -/
theorem c2_witness :
    (0 < 5 ∧ 7 < rowsPerProc 64 2 5 4)
    ∧ (K_0 64 2 8 4 ≤ rowsPerProc 64 2 5 4
       ∧ (inLocalPass 64 2 8 4 7 ↔ ¬ inBoundaryPass 64 2 8 5 4 7)
       ∧ (64 / 2 = 8 →
           K_0 64 2 8 4 = 0 ∧ ¬ inLocalPass 64 2 8 4 7 ∧ inBoundaryPass 64 2 8 5 4 7)) :=
  ⟨⟨by decide, by decide⟩, c2_pass_partition 64 2 8 5 4 7 (by decide) (by decide)⟩

/-- C3: in a ring of `P > 1` processes the ghost exchange first copies the
locally resident `b_cnt*S` elements into the head of `alpha_ghost` before
the receive is consumed, the receive posted towards `PID_right` matches that
rank's send to its own predecessor (which is this rank), and after the
receive completes the `(B-d_mu)*S` elements at offset `b_cnt*S` of
`alpha_ghost` equal the leading `(B-d_mu)*S` elements of the successor's
local input slice while the head still holds the local copy. -/
theorem c3_ghost_exchange {C : Type} (g0 : Nat → C) (alphas : Nat → Nat → C)
    (P rank M B d_mu S t : Nat) (hP : 1 < P) (hr : rank < P) :
    PID_left P (PID_right P rank) = rank
    ∧ (t < b_cnt M P B d_mu * S →
        ghostAfterCopy g0 (alphas rank) M P B d_mu S t
          = alphas rank (K_0 M P B d_mu * d_mu * S + t))
    ∧ (t < (B - d_mu) * S →
        ghostAfterRecv g0 alphas P rank M B d_mu S (b_cnt M P B d_mu * S + t)
          = alphas (PID_right P rank) t)
    ∧ (t < b_cnt M P B d_mu * S →
        ghostAfterRecv g0 alphas P rank M B d_mu S t
          = alphas rank (K_0 M P B d_mu * d_mu * S + t)) := by
  refine ⟨PID_left_PID_right P rank (by omega) hr, ?_, ?_, ?_⟩
  · intro ht
    unfold ghostAfterCopy
    rw [if_pos ht]
  · intro ht
    unfold ghostAfterRecv
    rw [if_pos ⟨Nat.le_add_right _ _, by omega⟩]
    unfold sendPayload
    rw [Nat.add_sub_cancel_left]
  · intro ht
    unfold ghostAfterRecv
    rw [if_neg (fun hc => absurd hc.1 (by omega))]
    unfold ghostAfterCopy
    rw [if_pos ht]

/-- Witness for C3 at a concrete configuration
(`P = 2, rank = 0, M = 8, B = 2, d_mu = 1, S = 1`, so `K_0 = 2`,
`b_cnt = 2`). -/
theorem c3_witness :
    (1 < 2 ∧ 0 < 2)
    ∧ (PID_left 2 (PID_right 2 0) = 0
       ∧ (0 < b_cnt 8 2 2 1 * 1 →
           ghostAfterCopy (fun _ => (0 : Nat)) ((fun r t => 10 * (r + 1) + t) 0) 8 2 2 1 1 0
             = (fun r t => 10 * (r + 1) + t) 0 (K_0 8 2 2 1 * 1 * 1 + 0))
       ∧ (0 < (2 - 1) * 1 →
           ghostAfterRecv (fun _ => (0 : Nat)) (fun r t => 10 * (r + 1) + t) 2 0 8 2 1 1
               (b_cnt 8 2 2 1 * 1 + 0)
             = (fun r t => 10 * (r + 1) + t) (PID_right 2 0) 0)
       ∧ (0 < b_cnt 8 2 2 1 * 1 →
           ghostAfterRecv (fun _ => (0 : Nat)) (fun r t => 10 * (r + 1) + t) 2 0 8 2 1 1 0
             = (fun r t => 10 * (r + 1) + t) 0 (K_0 8 2 2 1 * 1 * 1 + 0))) :=
  ⟨⟨by decide, by decide⟩,
   c3_ghost_exchange (fun _ => (0 : Nat)) (fun r t => 10 * (r + 1) + t)
     2 0 8 2 1 1 0 (by decide) (by decide)⟩

/-- C4: the Transpose/Scatter Step writes element `s` of the block for
`(row j, oversampling index theta)` to `alpha_tilde[s*l + j*n_mu + theta]`
and is a pure index permutation: scattering block-major values and reading
them back in column-major order recovers exactly the values fed in. -/
theorem c4_transpose_roundtrip {C : Type} (buf g : Nat → C) (S l R j n_mu theta s : Nat)
    (hR : R ≤ l) (hjn : j * n_mu + theta < R) (hs : s < S) :
    scatterAll buf g S l R (s * l + (j * n_mu + theta))
      = g (S * (j * n_mu + theta) + s) := by
  unfold scatterAll
  exact scatterFold_read g S l (fun jn => jn) R buf (j * n_mu + theta) s hjn hs
    (fun q hq => show q < l by omega) (fun q hq hne => hne)

/-- Witness for C4 at a concrete configuration
(`S = 2, l = 6, R = 6, j = 1, n_mu = 2, theta = 1, s = 1`). -/
theorem c4_witness :
    (6 ≤ 6 ∧ 1 * 2 + 1 < 6 ∧ 1 < 2)
    ∧ scatterAll (fun _ => (0 : Nat)) (fun i => i + 100) 2 6 6 (1 * 6 + (1 * 2 + 1))
      = (fun i => i + 100) (2 * (1 * 2 + 1) + 1) :=
  ⟨⟨by decide, by decide, by decide⟩,
   c4_transpose_roundtrip (fun _ => (0 : Nat)) (fun i => i + 100) 2 6 6 1 2 1 1
     (by decide) (by decide) (by decide)⟩

/-- C5: for every `(row, theta)` output block it covers, the
register-blocked, unrolled kernel of the Local-Only Pass (ring buffer of
`input_buffer_len = 128` slots) produces output identical to the
straightforward sequential kernel used for the remainder rows and the
boundary pass — the equality is stated for arbitrary add/multiply
operations, so it asserts the same operations on the same operands in the
same order, hence bit-identical floating-point results. -/
theorem c5_unrolled_matches_simple {C : Type} (add mul : C → C → C)
    (wf : Nat → Nat → Nat → C) (buf0 alpha : Nat → C)
    (B d_mu J S jb p m j theta : Nat)
    (hB : 1 ≤ B) (hd : d_mu ≤ B) (hj : j < J) (hwin : B - d_mu + d_mu * J ≤ 128) :
    unrolledValue add mul wf buf0 alpha B d_mu J S jb 128 p m j theta
      = convKernel add mul wf (fun seg lane => alpha (seg * S + lane)) B d_mu
          (jb + m * J + j) theta p :=
  unrolledValue_eq add mul wf buf0 alpha B d_mu J S jb 128 p m j theta hB hd hj hwin

/-- Witness for C5 at a concrete configuration
(`B = 2, d_mu = 1, J = 1, S = 1`, second row-group iteration). -/
theorem c5_witness :
    (1 ≤ 2 ∧ 1 ≤ 2 ∧ 0 < 1 ∧ 2 - 1 + 1 * 1 ≤ 128)
    ∧ unrolledValue Nat.add Nat.mul (fun k th lane => k + th + lane + 1)
        (fun _ => 0) (fun i => i + 1) 2 1 1 1 0 128 0 1 0 0
      = convKernel Nat.add Nat.mul (fun k th lane => k + th + lane + 1)
          (fun seg lane => (fun i => i + 1) (seg * 1 + lane)) 2 1 (0 + 1 * 1 + 0) 0 0 :=
  ⟨⟨by decide, by decide, by decide, by decide⟩,
   c5_unrolled_matches_simple Nat.add Nat.mul (fun k th lane => k + th + lane + 1)
     (fun _ => 0) (fun i => i + 1) 2 1 1 1 0 0 1 0 0
     (by decide) (by decide) (by decide) (by decide)⟩

/-- C6: for the oversampling-numerator-8 configuration, the specialized AVX
4x4 vector-lane interleave transpose path writes into `alpha_tilde` exactly
the same values at exactly the same positions as the scalar
element-by-element transpose path: as buffer transformers the two paths are
equal functions. -/
theorem c6_avx_transpose_matches_scalar {C : Type} (buf g : Nat → C) (S l j : Nat)
    (hS : S % 4 = 0) (hl : j * 8 + 8 ≤ l) :
    avxTransposePath buf g S l j = scalarTransposePath buf g S l j 8 := by
  funext a
  unfold avxTransposePath scalarTransposePath
  by_cases hin : j * 8 ≤ a % l ∧ a % l < j * 8 + 8 ∧ a / l < S
  · obtain ⟨h1, h2, h3⟩ := hin
    have hl0 : 0 < l := by omega
    have e := Nat.div_add_mod a l
    have ha : a = a / l * l + (j * 8 + (a % l - j * 8)) := by
      have e2 : a / l * l = l * (a / l) := by ring
      omega
    have havx : (List.range (S / 4)).foldl
        (fun b chunk => avxChunk b g S l j (4 * chunk)) buf
        (a / l * l + (j * 8 + (a % l - j * 8)))
        = g (S * (j * 8 + (a % l - j * 8)) + a / l) :=
      avxFold_read g S l j hl (S / 4) buf (a / l) (a % l - j * 8) (by omega) (by omega)
    have hsc : (List.range 8).foldl
        (fun b theta => scatterBlock b g S l (j * 8 + theta)) buf
        (a / l * l + (j * 8 + (a % l - j * 8)))
        = g (S * (j * 8 + (a % l - j * 8)) + a / l) :=
      scatterFold_read g S l (fun theta => j * 8 + theta) 8 buf (a % l - j * 8) (a / l)
        (by omega) h3 (fun v hv => show j * 8 + v < l by omega)
        (fun v hv hne => show j * 8 + v ≠ j * 8 + (a % l - j * 8) by omega)
    rw [ha, havx, hsc]
  · have hmiss1 : ∀ s v, s < 4 * (S / 4) → v < 8 → s * l + (j * 8 + v) ≠ a := by
      intro s v hs hv he
      have hrl : j * 8 + v < l := by omega
      have hmd := block_addr_mod_div s hrl
      rw [he] at hmd
      exact hin ⟨by omega, by omega, by omega⟩
    have hmiss2 : ∀ q s, q < 8 → s < S → s * l + (j * 8 + q) ≠ a := by
      intro q s hq hs he
      have hrl : j * 8 + q < l := by omega
      have hmd := block_addr_mod_div s hrl
      rw [he] at hmd
      exact hin ⟨by omega, by omega, by omega⟩
    rw [avxFold_skip g S l j (S / 4) buf a hmiss1,
        scatterFold_skip g S l (fun theta => j * 8 + theta) 8 buf a hmiss2]

/-- Witness for C6 at a concrete configuration (`S = 4, l = 8, j = 0`). -/
theorem c6_witness :
    (4 % 4 = 0 ∧ 0 * 8 + 8 ≤ 8)
    ∧ avxTransposePath (fun _ => (0 : Nat)) (fun i => i + 50) 4 8 0
      = scalarTransposePath (fun _ => (0 : Nat)) (fun i => i + 50) 4 8 0 8 :=
  ⟨⟨by decide, by decide⟩,
   c6_avx_transpose_matches_scalar (fun _ => (0 : Nat)) (fun i => i + 50) 4 8 0
     (by decide) (by decide)⟩

/-- C7: for every `(n_mu, d_mu)` pair other than `(5,4)` and `(8,7)`,
invoking the stage is a fatal configuration error: the diagnostic is printed
exactly on the coordinating rank 0, every rank calls `exit(-1)`, and no
communication, compute or buffer write has happened. -/
theorem c7_unsupported_ratio_fatal (n_mu d_mu rank : Nat)
    (h : supportedRatio n_mu d_mu = false) :
    dispatchOutcome n_mu d_mu rank
      = some ⟨true, -1, rank == 0, false, false, false⟩ := by
  unfold dispatchOutcome
  rw [h]
  rfl

/-- Witness for C7 at the concrete unsupported pair `(3,2)` on rank 0. -/
theorem c7_witness :
    supportedRatio 3 2 = false
    ∧ dispatchOutcome 3 2 0 = some ⟨true, -1, (0 == 0), false, false, false⟩ :=
  ⟨by decide, c7_unsupported_ratio_fatal 3 2 0 (by decide)⟩

/-- C8: if `M/P < B`, the stage refuses to run: every rank terminates
(`exit(0)`) before any compute or communication, the diagnostic is printed
exactly on rank 0, and no output buffer is written. -/
theorem c8_small_input_guard (M P B rank : Nat) (h : M / P < B) :
    smallInputGuard M P B rank = some ⟨true, 0, rank == 0, false, false, false⟩ := by
  unfold smallInputGuard
  rw [if_pos h]

/-- Witness for C8 at a concrete configuration (`M = 4, P = 1, B = 5`,
non-coordinating rank 3). -/
theorem c8_witness :
    4 / 1 < 5
    ∧ smallInputGuard 4 1 5 3 = some ⟨true, 0, (3 == 0), false, false, false⟩ :=
  ⟨by decide, c8_small_input_guard 4 1 5 3 (by decide)⟩

/-- Counterexample to C9 as stated: with `S = 32` the required thread-group
count is 8, a worker-thread count of 4 violates the precondition, yet on
rank 1 the guard does not fire — the process does not terminate, so the
violation is not a fatal error for the whole process group. -/
theorem c9_counterexample :
    4 < num_thread_groups 32 ∧ threadCountGuard 32 4 1 = none :=
  ⟨by decide, by decide⟩

/-- C9 (amended): a worker-thread count smaller than the number of thread
groups is detected before the parallel compute region, but the diagnostic
and the `exit(-1)` happen on the coordinating rank 0 only; every other rank
does not terminate. -/
theorem c9_thread_guard_rank0_only (S nthreads : Nat)
    (h : nthreads < num_thread_groups S) :
    threadCountGuard S nthreads 0 = some ⟨true, -1, true, true, false, false⟩
    ∧ ∀ rank, 0 < rank → threadCountGuard S nthreads rank = none := by
  constructor
  · unfold threadCountGuard
    rw [if_pos ⟨rfl, h⟩]
  · intro rank hrank
    unfold threadCountGuard
    rw [if_neg (fun hc => absurd hc.1 (by omega))]

/-- Witness for the amended C9 at a concrete configuration
(`S = 32`, 4 worker threads). -/
theorem c9_witness :
    4 < num_thread_groups 32
    ∧ (threadCountGuard 32 4 0 = some ⟨true, -1, true, true, false, false⟩
       ∧ ∀ rank, 0 < rank → threadCountGuard 32 4 rank = none) :=
  ⟨by decide, c9_thread_guard_rank0_only 32 4 (by decide)⟩

/-- C10: the two classes of configuration error exit with different
statuses: `M/P < B` exits with status 0 on every rank, an unsupported ratio
exits with status -1 on every rank, and an insufficient thread count exits
with status -1 on rank 0 only; in all three cases the diagnostic is printed
only on rank 0. -/
theorem c10_exit_statuses (M P B n_mu d_mu S nthreads rank : Nat)
    (h1 : M / P < B) (h2 : supportedRatio n_mu d_mu = false)
    (h3 : nthreads < num_thread_groups S) :
    smallInputGuard M P B rank = some ⟨true, 0, rank == 0, false, false, false⟩
    ∧ dispatchOutcome n_mu d_mu rank = some ⟨true, -1, rank == 0, false, false, false⟩
    ∧ threadCountGuard S nthreads rank
        = if rank = 0 then some ⟨true, -1, true, true, false, false⟩ else none := by
  refine ⟨?_, ?_, ?_⟩
  · unfold smallInputGuard
    rw [if_pos h1]
  · unfold dispatchOutcome
    rw [h2]
    rfl
  · unfold threadCountGuard
    by_cases hr : rank = 0
    · subst hr
      rw [if_pos ⟨rfl, h3⟩, if_pos rfl]
    · rw [if_neg (fun hc => hr hc.1), if_neg hr]

/-- Witness for C10 at a concrete configuration, on the non-coordinating
rank 1. -/
theorem c10_witness :
    (4 / 1 < 5 ∧ supportedRatio 3 2 = false ∧ 4 < num_thread_groups 32)
    ∧ (smallInputGuard 4 1 5 1 = some ⟨true, 0, (1 == 0), false, false, false⟩
       ∧ dispatchOutcome 3 2 1 = some ⟨true, -1, (1 == 0), false, false, false⟩
       ∧ threadCountGuard 32 4 1
           = if 1 = 0 then some ⟨true, -1, true, true, false, false⟩ else none) :=
  ⟨⟨by decide, by decide, by decide⟩,
   c10_exit_statuses 4 1 5 3 2 32 4 1 (by decide) (by decide) (by decide)⟩

end SOI
